import Mathlib

/-!
Verification development for the adam-bot graph-based workflow engine
(frontend sources). Definitions are shallow embeddings of the TypeScript
source files:

* `Flat` — the step-based types of `src/frontend/src/types/workflow.ts`.
* `Graph` — the graph-based types embedded in
  `src/frontend/src/components/panels/ContextPanel.tsx`.
* `GraphView` — the `WorkflowGraphView` component (node ordering and the
  Test button gate).
* `Mandate` — the `streamMessage` SSE consumer of the job-mandate API
  client.
* `Pipeline` — the step derivation of `WorkflowPipelineView.tsx`.
* `Engine` — the execution engine, which has no source under the frontend
  tree; it is modelled from the specification (sections 4.3 to 4.5).
-/

namespace Flat

/-- Step kinds of the flat (step-based) `StepInfo` type:
`step_type: 'execute' | 'checkpoint' | 'conditional' | 'loop'`. -/
inductive StepType where
  | execute
  | checkpoint
  | conditional
  | loop
deriving DecidableEq, Repr

/-- Checkpoint actions: `'approve' | 'edit' | 'reject' | 'skip'`. -/
inductive CheckpointAction where
  | approve
  | edit
  | reject
  | skip
deriving DecidableEq, Repr

/-- `CheckpointConfig` of `types/workflow.ts`. -/
structure CheckpointConfig where
  title : String
  description : String
  allowed_actions : List CheckpointAction
  editable_fields : List String
deriving Repr

/-- `StepInfo` of `types/workflow.ts` (the flat step model). -/
structure StepInfo where
  id : String
  name : String
  description : String
  step_type : StepType
  ui_component : Option String
  checkpoint_config : Option CheckpointConfig
deriving Repr

end Flat

/-- Workflow instance status, shared verbatim by the flat type file and the
graph-based type block:
`'pending' | 'running' | 'waiting' | 'paused' | 'completed' | 'failed' | 'cancelled'`. -/
inductive WorkflowInstanceStatus where
  | pending
  | running
  | waiting
  | paused
  | completed
  | failed
  | cancelled
deriving DecidableEq, Repr

/-- The list of all representable workflow instance status values. -/
def allInstanceStatuses : List WorkflowInstanceStatus :=
  [.pending, .running, .waiting, .paused, .completed, .failed, .cancelled]

namespace Graph

/-- Node kinds of the graph-based `NodeInfo` type:
`node_type: 'execute' | 'checkpoint'`. -/
inductive NodeType where
  | execute
  | checkpoint
deriving DecidableEq, Repr

/-- `NodeInfo` of the graph-based type block in `ContextPanel.tsx`. -/
structure NodeInfo where
  id : String
  name : String
  description : String
  node_type : NodeType
  ui_component : Option String
  checkpoint_config : Option Flat.CheckpointConfig
deriving Repr

/-- `NodeState` of the graph-based type block. -/
inductive NodeStatus where
  | pending
  | running
  | completed
  | failed
  | skipped
deriving DecidableEq, Repr

/-- `NodeState`: per-node execution record. -/
structure NodeState where
  status : NodeStatus
  execution_count : Nat
  error : Option String
deriving Repr

/-- `WorkflowInstanceState` of the graph-based type block; `step_data`
values are opaque, represented by a type parameter. -/
structure WorkflowInstanceState (V : Type) where
  id : String
  workflow_id : String
  status : WorkflowInstanceStatus
  current_node : Option String
  step_data : List (String × V)
  node_states : List (String × NodeState)
  created_at : String
  updated_at : String
  completed_at : Option String

/-- Event kinds of `WorkflowEvent`:
`'step_start' | 'step_complete' | 'checkpoint' | 'error' | 'complete' | 'cancelled'`. -/
inductive EventType where
  | step_start
  | step_complete
  | checkpoint
  | error
  | complete
  | cancelled
deriving DecidableEq, Repr

/-- The list of all representable workflow event kinds. -/
def allEventTypes : List EventType :=
  [.step_start, .step_complete, .checkpoint, .error, .complete, .cancelled]

/-- `WorkflowEvent` of the graph-based type block: `node_id`, `node_name`,
`data` and `error` are optional fields (marked `?` in the source). The
opaque `data` payload is a type parameter. -/
structure WorkflowEvent (D : Type) where
  event_type : EventType
  instance_id : String
  node_id : Option String
  node_name : Option String
  data : Option D
  error : Option String

end Graph

namespace Flat

/-- `WorkflowInstanceState` of `types/workflow.ts` (flat step-based),
with `step_states` keyed by step id. -/
structure WorkflowInstanceState (V : Type) where
  id : String
  workflow_id : String
  status : WorkflowInstanceStatus
  current_step : Option String
  step_data : List (String × V)
  step_states : List (String × Graph.NodeState)
  created_at : String
  updated_at : String
  completed_at : Option String

end Flat

/-- A concrete event with `event_type = complete` and none of the optional
fields populated; a legal value of the `WorkflowEvent` type. -/
def bareCompleteEvent : Graph.WorkflowEvent Unit :=
  { event_type := .complete
    instance_id := "inst-1"
    node_id := none
    node_name := none
    data := none
    error := none }

/-- A concrete flat step whose `step_type` is `conditional`; a legal value
of the flat `StepInfo` type. -/
def conditionalStep : Flat.StepInfo :=
  { id := "n1"
    name := "branch"
    description := "legacy conditional step"
    step_type := .conditional
    ui_component := none
    checkpoint_config := none }

namespace GraphView

/-- Edge shape used by `WorkflowGraphView` (declared in the chat types
module; shape reconstructed from its use in the view: `from_node`,
`to_node`, optional `condition_expr` and `label`). -/
structure WorkflowEdge where
  from_node : String
  to_node : String
  condition_expr : Option String
  label : Option String
deriving Repr

/-- Execute-node payload (`goal`, `tools`, `input_fields`, `output_field`). -/
structure StepDefinition where
  goal : String
  tools : List String
  input_fields : List String
  output_field : Option String
deriving Repr

/-- Node shape used by `WorkflowGraphView`. -/
structure WorkflowNode where
  name : String
  description : String
  node_type : Graph.NodeType
  step_definition : Option StepDefinition
  checkpoint_config : Option Flat.CheckpointConfig
deriving Repr

/-- One property of the input schema (`type`, `description`). -/
structure SchemaProp where
  type : String
  description : String
deriving Repr

/-- Input schema carried by a designed workflow (`properties` record and
optional `required` list). -/
structure InputSchema where
  properties : List (String × SchemaProp)
  required : Option (List String)
deriving Repr

/-- `WorkflowGraphData`: the designed workflow payload displayed by
`WorkflowGraphView` (`entry_node`, `nodes` record, ordered `edges`). -/
structure WorkflowGraphData where
  name : String
  description : String
  category : Option String
  input_schema : Option InputSchema
  entry_node : String
  nodes : List (String × WorkflowNode)
  edges : List WorkflowEdge

/-- Model of the JavaScript `String.prototype.trim`: drop leading and
trailing whitespace characters. -/
def jsTrim (s : String) : String :=
  ⟨((s.data.dropWhile Char.isWhitespace).reverse.dropWhile Char.isWhitespace).reverse⟩

/-- `canTest` of `WorkflowGraphView`: the Test button gate. True when the
schema has no `required` list; otherwise every required key must map to an
entered value that is non-empty after trimming
(`inputValues[key]?.trim()` is truthy). -/
def canTest (workflow : Option WorkflowGraphData)
    (inputValues : String → Option String) : Bool :=
  match workflow with
  | none => true
  | some w =>
    match w.input_schema with
    | none => true
    | some sch =>
      match sch.required with
      | none => true
      | some req =>
        req.all fun k =>
          match inputValues k with
          | some v => !(jsTrim v == "")
          | none => false

/-- The Test button of `WorkflowGraphView` is rendered with
`disabled = !canTest`, so it is enabled exactly when `canTest` holds. -/
def testButtonEnabled (workflow : Option WorkflowGraphData)
    (inputValues : String → Option String) : Bool :=
  canTest workflow inputValues

/-- Generic split of a filter count along a second boolean predicate. -/
theorem length_filter_split {α : Type} (l : List α) (p f : α → Bool) :
    (l.filter p).length =
      (l.filter (fun x => p x && !f x)).length +
      (l.filter (fun x => p x && f x)).length := by
  induction l with
  | nil => simp
  | cons x xs ih =>
    by_cases hp : p x <;> by_cases hf : f x <;>
      simp [List.filter_cons, hp, hf, ih] <;> omega

/-- Splitting an edge-count filter at a newly visited node: edges whose
source is unvisited are exactly those whose source is `q` plus those whose
source stays unvisited after adding `q`. -/
theorem filter_from_split (edges : List WorkflowEdge) (visited : List String)
    (q : String) (hq : q ∉ visited) :
    (edges.filter (fun e => decide (e.from_node ∉ visited))).length =
      (edges.filter (fun e => decide (e.from_node ∉ visited ++ [q]))).length +
      (edges.filter (fun e => decide (e.from_node = q))).length := by
  have hgen := length_filter_split edges
    (fun e => decide (e.from_node ∉ visited)) (fun e => decide (e.from_node = q))
  have h1 : edges.filter
      (fun e => decide (e.from_node ∉ visited) && !decide (e.from_node = q)) =
      edges.filter (fun e => decide (e.from_node ∉ visited ++ [q])) := by
    apply List.filter_congr
    intro e _
    by_cases hm : e.from_node ∈ visited <;> by_cases he : e.from_node = q <;>
      simp [hm, he, List.mem_append]
  have h2 : edges.filter
      (fun e => decide (e.from_node ∉ visited) && decide (e.from_node = q)) =
      edges.filter (fun e => decide (e.from_node = q)) := by
    apply List.filter_congr
    intro e _
    by_cases he : e.from_node = q
    · simp [he, hq]
    · simp [he]
  rw [h1, h2] at hgen
  exact hgen

/-- The breadth-first loop of `orderedNodes`: pop the queue head; skip it
when already visited; otherwise mark it visited, append it to the display
order, and enqueue the targets of its outgoing edges that are still
unvisited (in edge declaration order). Returns the final visited set and
order. -/
def bfsLoop (edges : List WorkflowEdge) :
    List String → List String → List String → List String × List String
  | [], visited, order => (visited, order)
  | q :: rest, visited, order =>
    if q ∈ visited then
      bfsLoop edges rest visited order
    else
      bfsLoop edges
        (rest ++ ((edges.filter (fun e => decide (e.from_node = q))).filter
          (fun e => decide (e.to_node ∉ visited ++ [q]))).map (fun e => e.to_node))
        (visited ++ [q]) (order ++ [q])
termination_by queue visited _ =>
  queue.length + (edges.filter (fun e => decide (e.from_node ∉ visited))).length
decreasing_by
  · simp
  · have hsplit := filter_from_split edges visited q (by assumption)
    have hle := List.length_filter_le
      (fun e => decide (e.to_node ∉ visited ++ [q]))
      (edges.filter (fun e => decide (e.from_node = q)))
    simp only [List.length_append, List.length_cons, List.length_map]
    omega

/-- `orderedNodes` of `WorkflowGraphView`: breadth-first order from
`entry_node`, followed by the orphaned node ids (keys of the node record
not reached by the traversal), in record order. -/
def orderedNodes (w : WorkflowGraphData) : List String :=
  let vo := bfsLoop w.edges [w.entry_node] [] []
  vo.2 ++ (w.nodes.map Prod.fst).filter (fun k => decide (k ∉ vo.1))

/-- Invariant of `bfsLoop`: starting from any state, the loop returns the
initial visited set and order both extended by one common list `tail` of
newly visited nodes; `tail` has no duplicates, avoids the initial visited
set, and draws its elements from the initial queue or from edge targets.
When the queue head is unvisited it is the first newly visited node. -/
theorem bfsLoop_spec (edges : List WorkflowEdge) :
    ∀ queue visited order : List String, ∃ tail : List String,
      bfsLoop edges queue visited order = (visited ++ tail, order ++ tail) ∧
      (∀ x ∈ tail, x ∉ visited) ∧ tail.Nodup ∧
      (∀ x ∈ tail, x ∈ queue ∨ ∃ e ∈ edges, e.to_node = x) ∧
      (∀ q rest, queue = q :: rest → q ∉ visited → ∃ t, tail = q :: t) := by
  intro queue visited order
  induction queue, visited, order using bfsLoop.induct edges with
  | case1 visited order =>
    refine ⟨[], by simp [bfsLoop], by simp, List.nodup_nil, by simp, ?_⟩
    intro q rest h
    exact absurd h (by simp)
  | case2 q rest visited order hq ih =>
    obtain ⟨tail, heq, hnotv, hnodup, hsrc, _⟩ := ih
    refine ⟨tail, ?_, hnotv, hnodup, ?_, ?_⟩
    · simpa [bfsLoop, hq] using heq
    · intro x hx
      rcases hsrc x hx with h | h
      · exact Or.inl (List.mem_cons_of_mem _ h)
      · exact Or.inr h
    · intro q' rest' hqr hq'
      injection hqr with h1 h2
      subst h1
      exact absurd hq hq' 
  | case3 q rest visited order hq ih =>
    obtain ⟨tail, heq, hnotv, hnodup, hsrc, _⟩ := ih
    refine ⟨q :: tail, ?_, ?_, ?_, ?_, ?_⟩
    · have : bfsLoop edges (q :: rest) visited order =
          bfsLoop edges
            (rest ++ ((edges.filter (fun e => decide (e.from_node = q))).filter
              (fun e => decide (e.to_node ∉ visited ++ [q]))).map (fun e => e.to_node))
            (visited ++ [q]) (order ++ [q]) := by
        simp [bfsLoop, hq]
      rw [this, heq]
      simp
    · intro x hx
      rcases List.mem_cons.1 hx with rfl | hx
      · exact hq
      · intro hxv
        exact hnotv x hx (List.mem_append_left _ hxv)
    · refine List.nodup_cons.2 ⟨?_, hnodup⟩
      intro hqtail
      exact hnotv q hqtail (List.mem_append_right _ (by simp))
    · intro x hx
      rcases List.mem_cons.1 hx with rfl | hx
      · exact Or.inl (List.mem_cons_self _ _)
      · rcases hsrc x hx with h | h
        · rcases List.mem_append.1 h with h' | h'
          · exact Or.inl (List.mem_cons_of_mem _ h')
          · obtain ⟨e, he, rfl⟩ := List.mem_map.1 h'
            exact Or.inr ⟨e, List.mem_of_mem_filter (List.mem_of_mem_filter he), rfl⟩
        · exact Or.inr h
    · intro q' rest' hqr _
      injection hqr with h1 h2
      subst h1
      exact ⟨tail, rfl⟩

/-- C2: For every workflow graph whose edges all reference node ids present
in the nodes mapping, the display order computed by `orderedNodes`
(breadth-first traversal from `entry_node` following edges in declaration
order, then appending unreached nodes) lists every node id of the graph
exactly once, with `entry_node` in first position. Formally: with the node
record keys pairwise distinct, the computed order starts with `entry_node`,
counts every node id exactly once, and — when the edges are closed over the
node record and `entry_node` is itself a node id — is a permutation of the
node ids. -/
theorem orderedNodes_lists_nodes (w : WorkflowGraphData)
    (hkeys : (w.nodes.map Prod.fst).Nodup) :
    (orderedNodes w).head? = some w.entry_node ∧
    (∀ k ∈ w.nodes.map Prod.fst, List.count k (orderedNodes w) = 1) ∧
    ((∀ e ∈ w.edges, e.to_node ∈ w.nodes.map Prod.fst) →
      w.entry_node ∈ w.nodes.map Prod.fst →
      (orderedNodes w).Perm (w.nodes.map Prod.fst)) := by
  obtain ⟨tail, heq, hnotv, hnodup, hsrc, hhead⟩ :=
    bfsLoop_spec w.edges [w.entry_node] [] []
  obtain ⟨t, rfl⟩ := hhead w.entry_node [] rfl (by simp)
  have hvo : bfsLoop w.edges [w.entry_node] [] [] =
      (w.entry_node :: t, w.entry_node :: t) := by simpa using heq
  have hones : orderedNodes w = (w.entry_node :: t) ++
      (w.nodes.map Prod.fst).filter (fun k => decide (k ∉ w.entry_node :: t)) := by
    simp only [orderedNodes, hvo]
  refine ⟨?_, ?_, ?_⟩
  · simp [hones]
  · intro k hk
    rw [hones, List.count_append]
    by_cases hkv : k ∈ w.entry_node :: t
    · have h1 : List.count k (w.entry_node :: t) = 1 :=
        List.count_eq_one_of_mem hnodup hkv
      have h2 : k ∉ (w.nodes.map Prod.fst).filter
          (fun k => decide (k ∉ w.entry_node :: t)) := by
        intro hmem
        have h3 := (List.mem_filter.1 hmem).2
        simp only [decide_eq_true_eq] at h3
        exact h3 hkv
      rw [h1, List.count_eq_zero_of_not_mem h2]
    · have h1 : List.count k (w.entry_node :: t) = 0 :=
        List.count_eq_zero_of_not_mem hkv
      have h2 : List.count k ((w.nodes.map Prod.fst).filter
          (fun k => decide (k ∉ w.entry_node :: t))) = 1 := by
        rw [List.count_filter (by simpa using hkv)]
        exact List.count_eq_one_of_mem hkeys hk
      rw [h1, h2]
  · intro hclosed hentry
    have hsub : ∀ x ∈ w.entry_node :: t, x ∈ w.nodes.map Prod.fst := by
      intro x hx
      rcases hsrc x hx with h | h
      · simp at h
        exact h ▸ hentry
      · obtain ⟨e, he, rfl⟩ := h
        exact hclosed e he
    have h1 : ((w.nodes.map Prod.fst).filter
        (fun k => decide (k ∈ w.entry_node :: t))).Perm (w.entry_node :: t) := by
      refine (List.perm_ext_iff_of_nodup (hkeys.filter _) hnodup).2 ?_
      intro a
      simp only [List.mem_filter, decide_eq_true_eq]
      exact ⟨fun h => h.2, fun h => ⟨hsub a h, h⟩⟩
    have h2 := List.filter_append_perm
      (fun k => decide (k ∈ w.entry_node :: t)) (w.nodes.map Prod.fst)
    rw [hones]
    have h3 : (w.nodes.map Prod.fst).filter
        (fun k => decide (k ∉ w.entry_node :: t)) =
        (w.nodes.map Prod.fst).filter
        (fun k => !decide (k ∈ w.entry_node :: t)) := by
      simp only [decide_not]
    rw [h3]
    exact (h1.symm.append_right _).trans h2

/-- A minimal execute node for concrete examples. -/
def nodeEx (nm : String) : WorkflowNode :=
  { name := nm
    description := ""
    node_type := .execute
    step_definition := none
    checkpoint_config := none }

/-- A concrete two-node workflow graph: entry `a`, one edge `a -> b`. -/
def wEx2 : WorkflowGraphData :=
  { name := "demo"
    description := ""
    category := none
    input_schema := none
    entry_node := "a"
    nodes := [("a", nodeEx "A"), ("b", nodeEx "B")]
    edges := [{ from_node := "a", to_node := "b", condition_expr := none, label := none }] }

/-- Witness for C2 on the concrete graph `wEx2`. -/
theorem orderedNodes_lists_nodes_witness :
    (wEx2.nodes.map Prod.fst).Nodup ∧
    ((orderedNodes wEx2).head? = some wEx2.entry_node ∧
     (∀ k ∈ wEx2.nodes.map Prod.fst, List.count k (orderedNodes wEx2) = 1) ∧
     ((∀ e ∈ wEx2.edges, e.to_node ∈ wEx2.nodes.map Prod.fst) →
       wEx2.entry_node ∈ wEx2.nodes.map Prod.fst →
       (orderedNodes wEx2).Perm (wEx2.nodes.map Prod.fst))) :=
  ⟨by decide, orderedNodes_lists_nodes wEx2 (by decide)⟩

/-- C5: the Test action that launches a run is enabled if and only if every
required field of the `input_schema` maps to an entered value that is
non-empty after trimming whitespace, and is always enabled when the schema
carries no `required` list (or no schema at all). -/
theorem canTest_spec (w : WorkflowGraphData) (iv : String → Option String) :
    (w.input_schema = none → testButtonEnabled (some w) iv = true) ∧
    (∀ sch, w.input_schema = some sch → sch.required = none →
      testButtonEnabled (some w) iv = true) ∧
    (∀ sch req, w.input_schema = some sch → sch.required = some req →
      (testButtonEnabled (some w) iv = true ↔
        ∀ k ∈ req, ∃ v, iv k = some v ∧ jsTrim v ≠ "")) := by
  refine ⟨?_, ?_, ?_⟩
  · intro h
    simp [testButtonEnabled, canTest, h]
  · intro sch h hr
    simp [testButtonEnabled, canTest, h, hr]
  · intro sch req h hr
    simp only [testButtonEnabled, canTest, h, hr, List.all_eq_true]
    constructor
    · intro hall k hk
      have := hall k hk
      cases hiv : iv k with
      | none => rw [hiv] at this; simp at this
      | some v =>
        rw [hiv] at this
        refine ⟨v, rfl, ?_⟩
        simp only [Bool.not_eq_true'] at this
        intro hcontra
        rw [hcontra] at this
        simp at this
    · intro hall k hk
      obtain ⟨v, hv, hne⟩ := hall k hk
      rw [hv]
      simp [hne]

/-- A concrete schema with one required field, and an input assignment
filling it with a non-blank value. -/
def wEx5 : WorkflowGraphData :=
  { name := "demo5"
    description := ""
    category := none
    input_schema := some { properties := [], required := some ["topic"] }
    entry_node := "a"
    nodes := [("a", nodeEx "A")]
    edges := [] }

/-- Witness for C5 on `wEx5` with the required field filled. -/
theorem canTest_spec_witness :
    testButtonEnabled (some wEx5) (fun k => if k = "topic" then some " hi " else none) = true :=
  ((canTest_spec wEx5 _).2.2 { properties := [], required := some ["topic"] }
      ["topic"] rfl rfl).2
    (by intro k hk
        simp at hk
        subst hk
        refine ⟨" hi ", rfl, by decide⟩)

end GraphView

/-- C3: in both the flat step-based and the graph-based instance state
types, the instance status is one of exactly the seven values pending,
running, waiting, paused, completed, failed, cancelled; no other status
value is representable. -/
theorem instanceStatus_enumeration :
    (∀ s : WorkflowInstanceStatus, s ∈ allInstanceStatuses) ∧
    allInstanceStatuses.Nodup ∧ allInstanceStatuses.length = 7 ∧
    (∀ {V : Type} (st : Graph.WorkflowInstanceState V),
      st.status ∈ allInstanceStatuses) ∧
    (∀ {V : Type} (st : Flat.WorkflowInstanceState V),
      st.status ∈ allInstanceStatuses) := by
  have h : ∀ s : WorkflowInstanceStatus, s ∈ allInstanceStatuses := by
    intro s
    cases s <;> simp [allInstanceStatuses]
  exact ⟨h, by decide, by decide, fun st => h st.status, fun st => h st.status⟩

/-- C7 counterexample: the flat step type of `types/workflow.ts` admits the
kind `conditional` (and `loop`), so it is not the case that every
representable node kind of a workflow definition is execute or checkpoint. -/
theorem stepType_conditional_counterexample :
    conditionalStep.step_type ≠ Flat.StepType.execute ∧
    conditionalStep.step_type ≠ Flat.StepType.checkpoint ∧
    ¬ (∀ s : Flat.StepInfo,
        s.step_type = Flat.StepType.execute ∨
        s.step_type = Flat.StepType.checkpoint) :=
  ⟨by decide, by decide, fun h => by
    rcases h conditionalStep with hc | hc <;> exact absurd hc (by decide)⟩

/-- C7 amended: in the graph-based `NodeInfo` type every node kind is
execute or checkpoint and those are the only representable kinds, while the
legacy flat `StepInfo` type additionally admits conditional and loop. -/
theorem nodeType_enumeration :
    (∀ n : Graph.NodeInfo,
      n.node_type = Graph.NodeType.execute ∨
      n.node_type = Graph.NodeType.checkpoint) ∧
    (∀ t : Graph.NodeType,
      t = Graph.NodeType.execute ∨ t = Graph.NodeType.checkpoint) ∧
    (∀ t : Flat.StepType,
      t = Flat.StepType.execute ∨ t = Flat.StepType.checkpoint ∨
      t = Flat.StepType.conditional ∨ t = Flat.StepType.loop) := by
  refine ⟨?_, ?_, ?_⟩
  · intro n
    cases hn : n.node_type
    · exact Or.inl rfl
    · exact Or.inr rfl
  · intro t
    cases t
    · exact Or.inl rfl
    · exact Or.inr rfl
  · intro t
    cases t <;> simp

/-- C6 counterexample: `bareCompleteEvent` is a representable workflow event
carrying no node id, no node name and no data payload, refuting the claim
that every event carries them. -/
theorem workflowEvent_optional_counterexample :
    bareCompleteEvent.node_id = none ∧
    bareCompleteEvent.node_name = none ∧
    bareCompleteEvent.data = none ∧
    ¬ (∀ e : Graph.WorkflowEvent Unit,
        e.node_id.isSome ∧ e.node_name.isSome ∧ e.data.isSome) :=
  ⟨rfl, rfl, rfl, fun h => by
    have h1 := (h bareCompleteEvent).1
    simp [bareCompleteEvent] at h1⟩

/-- C6 amended: every workflow event's `event_type` is drawn from exactly
the six values step_start, step_complete, checkpoint, error, complete,
cancelled, and the node id, node name and data payload are carried as
optional fields. -/
theorem workflowEvent_event_type_enumeration :
    (∀ {D : Type} (e : Graph.WorkflowEvent D),
      e.event_type ∈ Graph.allEventTypes) ∧
    Graph.allEventTypes.Nodup ∧ Graph.allEventTypes.length = 6 := by
  have h : ∀ t : Graph.EventType, t ∈ Graph.allEventTypes := by
    intro t
    cases t <;> simp [Graph.allEventTypes]
  exact ⟨fun e => h e.event_type, by decide, by decide⟩

namespace Mandate

/-- The SSE line marker `data: ` (six characters). -/
def dataHeader : List Char := "data: ".toList

/-- The keep-alive payload `ping`. -/
def pingChars : List Char := "ping".toList

/-- Split a buffer at its first newline: `some (line, rest)` when a newline
exists, `none` otherwise (mirrors `buffer.indexOf('\n')` plus the two
slices). -/
def breakLine : List Char → Option (List Char × List Char)
  | [] => none
  | c :: cs =>
    if c = '\n' then some ([], cs)
    else
      match breakLine cs with
      | none => none
      | some (l, r) => some (c :: l, r)

theorem breakLine_eq {b l r : List Char} (h : breakLine b = some (l, r)) :
    b = l ++ '\n' :: r ∧ ('\n' : Char) ∉ l := by
  induction b generalizing l r with
  | nil => simp [breakLine] at h
  | cons c cs ih =>
    by_cases hc : c = '\n'
    · subst hc
      simp [breakLine] at h
      obtain ⟨rfl, rfl⟩ := h
      simp
    · simp only [breakLine, if_neg hc] at h
      cases hcs : breakLine cs with
      | none => rw [hcs] at h; cases h
      | some p =>
        rw [hcs] at h
        obtain ⟨l', r'⟩ := p
        simp only [Option.some.injEq, Prod.mk.injEq] at h
        obtain ⟨hl, rfl⟩ := h
        obtain ⟨hb, hnl⟩ := ih hcs
        subst hb
        constructor
        · rw [← hl]
          simp
        · rw [← hl]
          simp only [List.mem_cons, not_or]
          exact ⟨fun he => hc he.symm, hnl⟩

theorem breakLine_split {l : List Char} (hl : ('\n' : Char) ∉ l)
    (r : List Char) : breakLine (l ++ '\n' :: r) = some (l, r) := by
  induction l with
  | nil => simp [breakLine]
  | cons c cs ih =>
    have hc : c ≠ '\n' := fun h => hl (h ▸ List.mem_cons_self c cs)
    have hcs : ('\n' : Char) ∉ cs := fun h => hl (List.mem_cons_of_mem c h)
    rw [List.cons_append]
    simp only [breakLine, if_neg hc]
    rw [ih hcs]

/-- The skip test on a popped line:
`!line.trim() || !line.startsWith('data: ')`. -/
def skipLine (l : List Char) : Bool :=
  l.all Char.isWhitespace || !(dataHeader.isPrefixOf l)

/-- The inner `while` loop of `streamMessage`: pop complete lines from the
buffer; skip blank and non-`data: ` lines; skip empty and `ping` payloads;
parse and yield other payloads; on a parse failure, restore
`line + '\n' + buffer` and stop (the `break`). Returns the remaining buffer
and the yielded events in order. The payload parser (`JSON.parse`) is an
external parameter. -/
def innerLoop {α : Type} (parse : List Char → Option α) (buffer : List Char) :
    List Char × List α :=
  match hb : breakLine buffer with
  | none => (buffer, [])
  | some (line, rest) =>
    if skipLine line then
      innerLoop parse rest
    else if line.drop 6 = [] ∨ line.drop 6 = pingChars then
      innerLoop parse rest
    else
      match parse (line.drop 6) with
      | some e =>
        let p := innerLoop parse rest
        (p.1, e :: p.2)
      | none => (line ++ '\n' :: rest, [])
termination_by buffer.length
decreasing_by
  all_goals
    have hsplit := breakLine_eq hb
    rw [hsplit.1]
    simp [List.length_append]
    omega

/-- The chunk loop of `streamMessage`: append each received chunk to the
buffer and run the inner loop, accumulating yielded events. -/
def processChunks {α : Type} (parse : List Char → Option α) :
    List (List Char) → List Char → List Char × List α
  | [], buffer => (buffer, [])
  | c :: cs, buffer =>
    let p1 := innerLoop parse (buffer ++ c)
    let p2 := processChunks parse cs p1.1
    (p2.1, p1.2 ++ p2.2)

/-- The final-buffer flush of `streamMessage`: after the stream ends, if the
leftover buffer is non-blank and starts with `data: `, try to parse
everything after the marker and yield the result on success. -/
def finalize {α : Type} (parse : List Char → Option α) (buffer : List Char) :
    List α :=
  if !(buffer.all Char.isWhitespace) && dataHeader.isPrefixOf buffer then
    match parse (buffer.drop 6) with
    | some e => [e]
    | none => []
  else []

/-- The full event sequence yielded by `streamMessage` on a normally
terminated stream delivered as `chunks`. -/
def streamEvents {α : Type} (parse : List Char → Option α)
    (chunks : List (List Char)) : List α :=
  let p := processChunks parse chunks []
  p.2 ++ finalize parse p.1

/-- Concatenation of the received chunks. -/
def concatChunks (cs : List (List Char)) : List Char :=
  cs.foldr (fun c acc => c ++ acc) []

theorem innerLoop_none {α : Type} (parse : List Char → Option α)
    {b : List Char} (h : breakLine b = none) :
    innerLoop parse b = (b, []) := by
  conv_lhs => unfold innerLoop
  split
  · rfl
  · next l r hb => rw [h] at hb; cases hb

theorem innerLoop_skip {α : Type} (parse : List Char → Option α)
    {b line rest : List Char} (hb : breakLine b = some (line, rest))
    (hs : skipLine line = true) :
    innerLoop parse b = innerLoop parse rest := by
  conv_lhs => unfold innerLoop
  split
  · next h => rw [hb] at h; cases h
  · next l r h =>
    rw [hb] at h
    injection h with h2
    injection h2 with h3 h4
    subst h3
    subst h4
    rw [if_pos hs]

theorem innerLoop_ping {α : Type} (parse : List Char → Option α)
    {b line rest : List Char} (hb : breakLine b = some (line, rest))
    (hs : skipLine line = false)
    (hp : line.drop 6 = [] ∨ line.drop 6 = pingChars) :
    innerLoop parse b = innerLoop parse rest := by
  conv_lhs => unfold innerLoop
  split
  · next h => rw [hb] at h; cases h
  · next l r h =>
    rw [hb] at h
    injection h with h2
    injection h2 with h3 h4
    subst h3
    subst h4
    rw [if_neg (by simp [hs]), if_pos hp]

theorem innerLoop_yield {α : Type} (parse : List Char → Option α)
    {b line rest : List Char} {e : α} (hb : breakLine b = some (line, rest))
    (hs : skipLine line = false)
    (hp : ¬(line.drop 6 = [] ∨ line.drop 6 = pingChars))
    (he : parse (line.drop 6) = some e) :
    innerLoop parse b =
      ((innerLoop parse rest).1, e :: (innerLoop parse rest).2) := by
  conv_lhs => unfold innerLoop
  split
  · next h => rw [hb] at h; cases h
  · next l r h =>
    rw [hb] at h
    injection h with h2
    injection h2 with h3 h4
    subst h3
    subst h4
    rw [if_neg (by simp [hs]), if_neg hp, he]

theorem innerLoop_stall {α : Type} (parse : List Char → Option α)
    {b line rest : List Char} (hb : breakLine b = some (line, rest))
    (hs : skipLine line = false)
    (hp : ¬(line.drop 6 = [] ∨ line.drop 6 = pingChars))
    (hn : parse (line.drop 6) = none) :
    innerLoop parse b = (line ++ '\n' :: rest, []) := by
  conv_lhs => unfold innerLoop
  split
  · next h => rw [hb] at h; cases h
  · next l r h =>
    rw [hb] at h
    injection h with h2
    injection h2 with h3 h4
    subst h3
    subst h4
    rw [if_neg (by simp [hs]), if_neg hp, hn]

/-- Compositionality of the inner loop: processing `a ++ b` is processing
`a`, then processing the leftover buffer with `b` appended. This is the key
fact behind chunk-boundary insensitivity. -/
theorem innerLoop_append {α : Type} (parse : List Char → Option α)
    (a b : List Char) :
    innerLoop parse (a ++ b) =
      ((innerLoop parse ((innerLoop parse a).1 ++ b)).1,
       (innerLoop parse a).2 ++ (innerLoop parse ((innerLoop parse a).1 ++ b)).2) := by
  induction a using innerLoop.induct parse with
  | case1 x hx =>
    rw [innerLoop_none parse hx]
    simp
  | case2 x line rest hx hs ih =>
    obtain ⟨hdec, hnl⟩ := breakLine_eq hx
    have hx' : breakLine (x ++ b) = some (line, rest ++ b) := by
      rw [hdec, List.append_assoc, List.cons_append]
      exact breakLine_split hnl (rest ++ b)
    rw [innerLoop_skip parse hx' hs, innerLoop_skip parse hx hs, ih]
  | case3 x line rest hx hs hp ih =>
    obtain ⟨hdec, hnl⟩ := breakLine_eq hx
    have hx' : breakLine (x ++ b) = some (line, rest ++ b) := by
      rw [hdec, List.append_assoc, List.cons_append]
      exact breakLine_split hnl (rest ++ b)
    have hs' : skipLine line = false := by simpa using hs
    rw [innerLoop_ping parse hx' hs' hp, innerLoop_ping parse hx hs' hp, ih]
  | case4 x line rest hx hs hp e he ih =>
    obtain ⟨hdec, hnl⟩ := breakLine_eq hx
    have hx' : breakLine (x ++ b) = some (line, rest ++ b) := by
      rw [hdec, List.append_assoc, List.cons_append]
      exact breakLine_split hnl (rest ++ b)
    have hs' : skipLine line = false := by simpa using hs
    rw [innerLoop_yield parse hx' hs' hp he, innerLoop_yield parse hx hs' hp he, ih]
    simp
  | case5 x line rest hx hs hp hn =>
    obtain ⟨hdec, hnl⟩ := breakLine_eq hx
    have hx' : breakLine (x ++ b) = some (line, rest ++ b) := by
      rw [hdec, List.append_assoc, List.cons_append]
      exact breakLine_split hnl (rest ++ b)
    have hs' : skipLine line = false := by simpa using hs
    have hline : breakLine (line ++ '\n' :: rest) = some (line, rest) :=
      breakLine_split hnl rest
    have hstall := innerLoop_stall parse hx hs' hp hn
    rw [innerLoop_stall parse hx' hs' hp hn, hstall]
    have hres : breakLine ((line ++ '\n' :: rest) ++ b) = some (line, rest ++ b) := by
      rw [List.append_assoc, List.cons_append]
      exact breakLine_split hnl (rest ++ b)
    rw [innerLoop_stall parse hres hs' hp hn]
    simp

/-- The leftover buffer returned by the inner loop is a fixed point of the
inner loop: re-running it (for instance when another chunk arrives and the
stalled line is popped again) yields no events and the same buffer. -/
theorem innerLoop_idem {α : Type} (parse : List Char → Option α)
    (b : List Char) :
    innerLoop parse (innerLoop parse b).1 = ((innerLoop parse b).1, []) := by
  induction b using innerLoop.induct parse with
  | case1 x hx =>
    rw [innerLoop_none parse hx]
    exact innerLoop_none parse hx
  | case2 x line rest hx hs ih =>
    rw [innerLoop_skip parse hx hs]
    exact ih
  | case3 x line rest hx hs hp ih =>
    have hs' : skipLine line = false := by simpa using hs
    rw [innerLoop_ping parse hx hs' hp]
    exact ih
  | case4 x line rest hx hs hp e he ih =>
    have hs' : skipLine line = false := by simpa using hs
    rw [innerLoop_yield parse hx hs' hp he]
    exact ih
  | case5 x line rest hx hs hp hn =>
    have hs' : skipLine line = false := by simpa using hs
    obtain ⟨hdec, hnl⟩ := breakLine_eq hx
    have hline : breakLine (line ++ '\n' :: rest) = some (line, rest) :=
      breakLine_split hnl rest
    rw [innerLoop_stall parse hx hs' hp hn]
    exact innerLoop_stall parse hline hs' hp hn

/-- Folding the chunk loop over a buffer that is an inner-loop fixed point
computes the inner loop of the whole concatenation. -/
theorem processChunks_concat {α : Type} (parse : List Char → Option α)
    (cs : List (List Char)) :
    ∀ b : List Char, innerLoop parse b = (b, []) →
      processChunks parse cs b = innerLoop parse (b ++ concatChunks cs) := by
  induction cs with
  | nil =>
    intro b hb
    simp only [processChunks, concatChunks, List.foldr_nil, List.append_nil]
    exact hb.symm
  | cons c cs ih =>
    intro b hb
    have hfix : innerLoop parse (innerLoop parse (b ++ c)).1 =
        ((innerLoop parse (b ++ c)).1, []) := innerLoop_idem parse (b ++ c)
    have hrec := ih (innerLoop parse (b ++ c)).1 hfix
    simp only [processChunks, hrec]
    have hconcat : concatChunks (c :: cs) = c ++ concatChunks cs := rfl
    rw [hconcat, ← List.append_assoc]
    exact (innerLoop_append parse (b ++ c) (concatChunks cs)).symm

/-- The events yielded on a chunked stream are those yielded on the
single-chunk stream of the concatenation. -/
theorem streamEvents_eq_concat {α : Type} (parse : List Char → Option α)
    (chunks : List (List Char)) :
    streamEvents parse chunks = streamEvents parse [concatChunks chunks] := by
  have h0 : innerLoop parse ([] : List Char) = ([], []) :=
    innerLoop_none parse (by simp [breakLine])
  have h1 := processChunks_concat parse chunks [] h0
  have h2 := processChunks_concat parse [concatChunks chunks] [] h0
  simp only [streamEvents, h1, h2]
  have h3 : concatChunks [concatChunks chunks] = concatChunks chunks := by
    simp [concatChunks]
  rw [h3]

/-- C9: the sequence of events yielded by `streamMessage` depends only on
the concatenation of the received data chunks, not on the chunk
boundaries; moreover a complete line that is blank, does not start with
`data: `, or carries an empty or `ping` payload yields nothing. -/
theorem streamEvents_chunk_invariance {α : Type} (parse : List Char → Option α)
    (c1 c2 : List (List Char)) (line : List Char) :
    (concatChunks c1 = concatChunks c2 →
      streamEvents parse c1 = streamEvents parse c2) ∧
    (('\n' : Char) ∉ line →
      (line.all Char.isWhitespace = true ∨ dataHeader.isPrefixOf line = false ∨
       line.drop 6 = [] ∨ line.drop 6 = pingChars) →
      streamEvents parse [line ++ ['\n']] = []) := by
  constructor
  · intro h
    rw [streamEvents_eq_concat parse c1, streamEvents_eq_concat parse c2, h]
  · intro hline hcond
    have hb : breakLine (line ++ ['\n']) = some (line, []) := by
      have := breakLine_split hline ([] : List Char)
      simpa using this
    have hloop : innerLoop parse (line ++ ['\n']) = ([], []) := by
      by_cases hsk : skipLine line = true
      · rw [innerLoop_skip parse hb hsk]
        exact innerLoop_none parse (by simp [breakLine])
      · have hs' : skipLine line = false := by simpa using hsk
        have hp : line.drop 6 = [] ∨ line.drop 6 = pingChars := by
          rcases hcond with hblank | hdata | h1 | h2
          · exact absurd (by simp [skipLine, hblank]) hsk
          · exact absurd (by simp [skipLine, hdata]) hsk
          · exact Or.inl h1
          · exact Or.inr h2
        rw [innerLoop_ping parse hb hs' hp]
        exact innerLoop_none parse (by simp [breakLine])
    have hloop' : innerLoop parse ([] ++ (line ++ ['\n'])) = ([], []) := by
      simpa using hloop
    simp only [streamEvents, processChunks, hloop']
    simp [finalize]

/-- A parser used in concrete examples: the length of the payload. -/
def parseW9 : List Char → Option Nat := fun l => some l.length

/-- A two-chunk stream splitting a data line mid-payload. -/
def c1W : List (List Char) := ["data: ab".toList, "c\n".toList]

/-- The same bytes as `c1W` delivered in one chunk. -/
def c2W : List (List Char) := ["data: abc\n".toList]

/-- A keep-alive line. -/
def lineW9 : List Char := "data: ping".toList

/-- Witness for C9: the split and unsplit streams yield the same events,
and the `ping` keep-alive line yields nothing. -/
theorem streamEvents_chunk_invariance_witness :
    streamEvents parseW9 c1W = streamEvents parseW9 c2W ∧
    streamEvents parseW9 [lineW9 ++ ['\n']] = [] :=
  ⟨(streamEvents_chunk_invariance parseW9 c1W c2W lineW9).1 (by decide),
   (streamEvents_chunk_invariance parseW9 c1W c2W lineW9).2 (by decide) (by decide)⟩

/-- The events an ideal line-by-line consumer extracts from one complete
line: nothing for skipped lines and empty or `ping` payloads, the parsed
event otherwise. -/
def lineEvents {α : Type} (parse : List Char → Option α) (line : List Char) :
    List α :=
  if skipLine line then []
  else if line.drop 6 = [] ∨ line.drop 6 = pingChars then []
  else
    match parse (line.drop 6) with
    | some e => [e]
    | none => []

/-- The reference event order: the events of the complete `data: ` lines in
stream order, followed by the final-buffer flush of the unterminated
remainder. -/
def idealEvents {α : Type} (parse : List Char → Option α) (s : List Char) :
    List α :=
  match hb : breakLine s with
  | none => finalize parse s
  | some (line, rest) => lineEvents parse line ++ idealEvents parse rest
termination_by s.length
decreasing_by
  have hsplit := breakLine_eq hb
  rw [hsplit.1]
  simp [List.length_append]
  omega

theorem idealEvents_none {α : Type} (parse : List Char → Option α)
    {s : List Char} (h : breakLine s = none) :
    idealEvents parse s = finalize parse s := by
  conv_lhs => unfold idealEvents
  split
  · rfl
  · next l r hb => rw [h] at hb; cases hb

theorem idealEvents_cons {α : Type} (parse : List Char → Option α)
    {s line rest : List Char} (h : breakLine s = some (line, rest)) :
    idealEvents parse s = lineEvents parse line ++ idealEvents parse rest := by
  conv_lhs => unfold idealEvents
  split
  · next hb => rw [h] at hb; cases hb
  · next l r hb =>
    rw [h] at hb
    injection hb with h2
    injection h2 with h3 h4
    subst h3
    subst h4
    rfl

/-- The ideal consumer factors through the inner loop: the ideal events of
a buffer are the events the inner loop yields followed by the ideal events
of the leftover buffer. -/
theorem idealEvents_decomp {α : Type} (parse : List Char → Option α)
    (s : List Char) :
    idealEvents parse s =
      (innerLoop parse s).2 ++ idealEvents parse (innerLoop parse s).1 := by
  induction s using innerLoop.induct parse with
  | case1 x hx =>
    rw [innerLoop_none parse hx]
    simp
  | case2 x line rest hx hs ih =>
    rw [idealEvents_cons parse hx, innerLoop_skip parse hx hs, ih]
    simp [lineEvents, hs]
  | case3 x line rest hx hs hp ih =>
    have hs' : skipLine line = false := by simpa using hs
    rw [idealEvents_cons parse hx, innerLoop_ping parse hx hs' hp, ih]
    simp only [lineEvents]
    rw [if_neg (by simp [hs']), if_pos hp]
    simp
  | case4 x line rest hx hs hp e he ih =>
    have hs' : skipLine line = false := by simpa using hs
    rw [idealEvents_cons parse hx, innerLoop_yield parse hx hs' hp he, ih]
    simp only [lineEvents]
    rw [if_neg (by simp [hs']), if_neg hp, he]
    simp
  | case5 x line rest hx hs hp hn =>
    have hs' : skipLine line = false := by simpa using hs
    have hdec := (breakLine_eq hx).1
    rw [innerLoop_stall parse hx hs' hp hn]
    simp [hdec]

/-- The leftover buffer of the inner loop is either newline-free or a
stalled buffer headed by a non-skipped data line whose payload fails to
parse. -/
theorem innerLoop_residual_cases {α : Type} (parse : List Char → Option α)
    (s : List Char) :
    breakLine (innerLoop parse s).1 = none ∨
      ∃ line rest, (innerLoop parse s).1 = line ++ '\n' :: rest ∧
        ('\n' : Char) ∉ line ∧ skipLine line = false ∧
        ¬(line.drop 6 = [] ∨ line.drop 6 = pingChars) ∧
        parse (line.drop 6) = none := by
  induction s using innerLoop.induct parse with
  | case1 x hx =>
    rw [innerLoop_none parse hx]
    exact Or.inl hx
  | case2 x line rest hx hs ih =>
    rw [innerLoop_skip parse hx hs]
    exact ih
  | case3 x line rest hx hs hp ih =>
    have hs' : skipLine line = false := by simpa using hs
    rw [innerLoop_ping parse hx hs' hp]
    exact ih
  | case4 x line rest hx hs hp e he ih =>
    have hs' : skipLine line = false := by simpa using hs
    rw [innerLoop_yield parse hx hs' hp he]
    exact ih
  | case5 x line rest hx hs hp hn =>
    have hs' : skipLine line = false := by simpa using hs
    rw [innerLoop_stall parse hx hs' hp hn]
    exact Or.inr ⟨line, rest, rfl, (breakLine_eq hx).2, hs', hp, hn⟩

/-- A line is handled without stalling: it is skipped, is a keep-alive or
empty payload, or its payload parses. -/
def lineOk {α : Type} (parse : List Char → Option α) (line : List Char) :
    Prop :=
  skipLine line = true ∨ line.drop 6 = [] ∨ line.drop 6 = pingChars ∨
    (parse (line.drop 6)).isSome = true

/-- If every complete line of the buffer is handled without stalling, the
inner loop consumes every complete line: its leftover buffer has no
newline. -/
theorem innerLoop_consumes {α : Type} (parse : List Char → Option α) :
    ∀ s : List Char,
      (∀ pre line r, s = pre ++ line ++ '\n' :: r → ('\n' : Char) ∉ line →
        lineOk parse line) →
      breakLine (innerLoop parse s).1 = none := by
  intro s
  induction s using innerLoop.induct parse with
  | case1 x hx =>
    intro _
    rw [innerLoop_none parse hx]
    exact hx
  | case2 x line rest hx hs ih =>
    intro hgood
    have hdec := (breakLine_eq hx).1
    rw [innerLoop_skip parse hx hs]
    refine ih ?_
    intro pre l r hr hnl
    refine hgood (line ++ '\n' :: pre) l r ?_ hnl
    rw [hdec, hr]
    simp
  | case3 x line rest hx hs hp ih =>
    intro hgood
    have hs' : skipLine line = false := by simpa using hs
    have hdec := (breakLine_eq hx).1
    rw [innerLoop_ping parse hx hs' hp]
    refine ih ?_
    intro pre l r hr hnl
    refine hgood (line ++ '\n' :: pre) l r ?_ hnl
    rw [hdec, hr]
    simp
  | case4 x line rest hx hs hp e he ih =>
    intro hgood
    have hs' : skipLine line = false := by simpa using hs
    have hdec := (breakLine_eq hx).1
    rw [innerLoop_yield parse hx hs' hp he]
    refine ih ?_
    intro pre l r hr hnl
    refine hgood (line ++ '\n' :: pre) l r ?_ hnl
    rw [hdec, hr]
    simp
  | case5 x line rest hx hs hp hn =>
    intro hgood
    exfalso
    have hs' : skipLine line = false := by simpa using hs
    have hdec := (breakLine_eq hx).1
    have hok := hgood [] line rest (by simpa using hdec) (breakLine_eq hx).2
    rcases hok with h | h | h | h
    · rw [hs'] at h; cases h
    · exact hp (Or.inl h)
    · exact hp (Or.inr h)
    · rw [hn] at h; cases h

theorem isPrefixOf_iff_exists (p l : List Char) :
    p.isPrefixOf l = true ↔ ∃ t, l = p ++ t := by
  induction p generalizing l with
  | nil => simp [List.isPrefixOf]
  | cons a p ih =>
    cases l with
    | nil => simp [List.isPrefixOf]
    | cons b l =>
      simp only [List.isPrefixOf, List.cons_append, Bool.and_eq_true, beq_iff_eq,
        List.cons.injEq, ih]
      constructor
      · rintro ⟨rfl, t, rfl⟩
        exact ⟨t, rfl, rfl⟩
      · rintro ⟨t, rfl, rfl⟩
        exact ⟨rfl, t, rfl⟩

/-- Closed form of `streamEvents`: the inner-loop events of the whole byte
stream followed by the final flush of the leftover buffer. -/
theorem streamEvents_closed_form {α : Type} (parse : List Char → Option α)
    (chunks : List (List Char)) :
    streamEvents parse chunks =
      (innerLoop parse (concatChunks chunks)).2 ++
        finalize parse (innerLoop parse (concatChunks chunks)).1 := by
  rw [streamEvents_eq_concat]
  have h0 : innerLoop parse ([] : List Char) = ([], []) :=
    innerLoop_none parse (by simp [breakLine])
  have h1 : concatChunks [concatChunks chunks] = concatChunks chunks := by
    simp [concatChunks]
  simp only [streamEvents, processChunks, List.nil_append, h1]
  simp

/-- The claim's reference order, written from the claim's words: the
parsed events of the complete `data: ` lines of the byte stream, in the
order the lines occur; an unterminated trailing line contributes
nothing. -/
def completeLineEvents {α : Type} (parse : List Char → Option α)
    (s : List Char) : List α :=
  match hb : breakLine s with
  | none => []
  | some (line, rest) => lineEvents parse line ++ completeLineEvents parse rest
termination_by s.length
decreasing_by
  have hsplit := breakLine_eq hb
  rw [hsplit.1]
  simp [List.length_append]
  omega

theorem completeLineEvents_none {α : Type} (parse : List Char → Option α)
    {s : List Char} (h : breakLine s = none) :
    completeLineEvents parse s = [] := by
  conv_lhs => unfold completeLineEvents
  split
  · rfl
  · next l r hb => rw [h] at hb; cases hb

theorem completeLineEvents_cons {α : Type} (parse : List Char → Option α)
    {s line rest : List Char} (h : breakLine s = some (line, rest)) :
    completeLineEvents parse s =
      lineEvents parse line ++ completeLineEvents parse rest := by
  conv_lhs => unfold completeLineEvents
  split
  · next hb => rw [h] at hb; cases hb
  · next l r hb =>
    rw [h] at hb
    injection hb with h2
    injection h2 with h3 h4
    subst h3
    subst h4
    rfl

/-- The final-buffer flush yields at most one event. -/
theorem finalize_length_le {α : Type} (parse : List Char → Option α)
    (b : List Char) : (finalize parse b).length ≤ 1 := by
  unfold finalize
  split
  · split <;> simp
  · simp

/-- The events yielded by the inner loop form an initial segment of the
complete-line reference order: the loop consumes lines front to back and
emits each consumed line's event in place. -/
theorem completeLineEvents_prefix {α : Type} (parse : List Char → Option α)
    (s : List Char) :
    ∃ t, completeLineEvents parse s = (innerLoop parse s).2 ++ t := by
  induction s using innerLoop.induct parse with
  | case1 x hx =>
    rw [innerLoop_none parse hx]
    exact ⟨completeLineEvents parse x, by simp⟩
  | case2 x line rest hx hs ih =>
    obtain ⟨t, ht⟩ := ih
    rw [completeLineEvents_cons parse hx, innerLoop_skip parse hx hs, ht]
    exact ⟨t, by simp [lineEvents, hs]⟩
  | case3 x line rest hx hs hp ih =>
    have hs' : skipLine line = false := by simpa using hs
    obtain ⟨t, ht⟩ := ih
    rw [completeLineEvents_cons parse hx, innerLoop_ping parse hx hs' hp, ht]
    refine ⟨t, ?_⟩
    simp only [lineEvents]
    rw [if_neg (by simp [hs']), if_pos hp]
    simp
  | case4 x line rest hx hs hp e he ih =>
    have hs' : skipLine line = false := by simpa using hs
    obtain ⟨t, ht⟩ := ih
    rw [completeLineEvents_cons parse hx, innerLoop_yield parse hx hs' hp he, ht]
    refine ⟨t, ?_⟩
    simp only [lineEvents]
    rw [if_neg (by simp [hs']), if_neg hp, he]
    simp
  | case5 x line rest hx hs hp hn =>
    have hs' : skipLine line = false := by simpa using hs
    rw [innerLoop_stall parse hx hs' hp hn]
    exact ⟨completeLineEvents parse x, by simp⟩

/-- A parser behaving like `JSON.parse` on the payloads of the
counterexample stream: the payload `1` parses, the truncated payload `[1`
(and the multi-line leftover buffer) does not. -/
def parseCX : List Char → Option String :=
  fun l => if l = "1".toList then some "1" else none

/-- A single-chunk stream whose first data line carries a malformed
payload and whose second carries a well-formed one. -/
def chunksCX : List (List Char) := ["data: [1\ndata: 1\n".toList]

/-- C4 counterexample: the claim fails as stated. On `chunksCX` the second
`data: ` line is complete and its payload parses, yet `streamMessage`
yields nothing at all: the malformed first line stalls the buffer and the
later complete line's event is silently dropped, so the yields are not the
parsed events of the complete `data: ` lines in their order of
occurrence. -/
theorem streamMessage_order_counterexample :
    streamEvents parseCX chunksCX = [] ∧
    completeLineEvents parseCX (concatChunks chunksCX) = ["1"] ∧
    streamEvents parseCX chunksCX ≠
      completeLineEvents parseCX (concatChunks chunksCX) := by
  have hconcat : concatChunks chunksCX = "data: [1\ndata: 1\n".toList := by
    simp [concatChunks, chunksCX]
  have hb1 : breakLine ("data: [1\ndata: 1\n".toList) =
      some ("data: [1".toList, "data: 1\n".toList) := by decide
  have hb2 : breakLine ("data: 1\n".toList) =
      some ("data: 1".toList, []) := by decide
  have h1 : streamEvents parseCX chunksCX = [] := by
    rw [streamEvents_closed_form, hconcat,
      innerLoop_stall parseCX hb1 (by decide) (by decide) (by decide)]
    decide
  have h2 : completeLineEvents parseCX (concatChunks chunksCX) = ["1"] := by
    rw [hconcat, completeLineEvents_cons parseCX hb1,
      completeLineEvents_cons parseCX hb2,
      completeLineEvents_none parseCX (by decide)]
    decide
  refine ⟨h1, h2, ?_⟩
  rw [h1, h2]
  decide

/-- C4 amended: events are never reordered or duplicated, but delivery is
only an initial segment of the per-line order plus one possible flush. The
yields decompose as `evs ++ flush`, where `evs` is an initial segment of
the parsed events of the complete `data: ` lines in their order of
occurrence and `flush` is at most one final event parsed from the whole
leftover buffer at end of stream (an unterminated trailing line, or the
stalled buffer from the first line whose payload failed to parse onward —
whose later complete lines yield nothing individually). When every
complete line of the stream is blank, non-`data: `, empty, `ping`, or
parses, the yields are exactly the complete lines' events in order
followed by the final-buffer flush. -/
theorem streamMessage_yield_order_amended {α : Type}
    (parse : List Char → Option α) (chunks : List (List Char)) :
    (∃ evs flush, streamEvents parse chunks = evs ++ flush ∧
      (∃ t, completeLineEvents parse (concatChunks chunks) = evs ++ t) ∧
      flush.length ≤ 1) ∧
    ((∀ pre line r, concatChunks chunks = pre ++ line ++ '\n' :: r →
        ('\n' : Char) ∉ line → lineOk parse line) →
      streamEvents parse chunks = idealEvents parse (concatChunks chunks)) := by
  constructor
  · exact ⟨(innerLoop parse (concatChunks chunks)).2,
      finalize parse (innerLoop parse (concatChunks chunks)).1,
      streamEvents_closed_form parse chunks,
      completeLineEvents_prefix parse (concatChunks chunks),
      finalize_length_le parse _⟩
  · intro hgood
    rw [streamEvents_closed_form, idealEvents_decomp parse (concatChunks chunks)]
    rw [idealEvents_none parse
      (innerLoop_consumes parse (concatChunks chunks) hgood)]

/-- A parser used in the C4 witness: accepts any newline-free payload. -/
def parseW4 : List Char → Option (List Char) :=
  fun l => if ('\n' : Char) ∈ l then none else some l

/-- A single-chunk stream whose only data line is unterminated. -/
def chunksW4 : List (List Char) := ["data: x".toList]

/-- Witness for the amended C4 on the concrete stream `chunksW4`: the
decomposition holds, and so does the exact-order equality (its no-stall
hypothesis is vacuous, the stream having no complete line). -/
theorem streamMessage_yield_order_amended_witness :
    (∃ evs flush, streamEvents parseW4 chunksW4 = evs ++ flush ∧
      (∃ t, completeLineEvents parseW4 (concatChunks chunksW4) = evs ++ t) ∧
      flush.length ≤ 1) ∧
    streamEvents parseW4 chunksW4 =
      idealEvents parseW4 (concatChunks chunksW4) :=
  ⟨(streamMessage_yield_order_amended parseW4 chunksW4).1,
   (streamMessage_yield_order_amended parseW4 chunksW4).2
      (fun pre line r h _ => by
        exfalso
        have hmem : ('\n' : Char) ∈ concatChunks chunksW4 := by
          rw [h]
          simp
        exact absurd hmem (by decide))⟩

/-- A JavaScript value thrown while iterating the raw stream: either an
`Error` object (with `name` and `message`) or an arbitrary non-Error value
rendered by `String(error)`. -/
inductive StreamFailure where
  | jsError (name message : String)
  | other (text : String)
deriving DecidableEq, Repr

/-- The guard `error instanceof Error && error.name === 'AbortError'`. -/
def isAbortError : StreamFailure → Bool
  | .jsError nm _ => nm == "AbortError"
  | .other _ => false

/-- The text interpolated into the fabricated error event:
`error instanceof Error ? error.message : String(error)`. -/
def failureText : StreamFailure → String
  | .jsError _ msg => msg
  | .other s => s

/-- An item yielded by the `streamMessage` generator: a parsed stream event
or the fabricated `error` event of the catch handler. -/
inductive Yielded (α : Type) where
  | parsed (e : α)
  | errorEvent (message : String)
deriving DecidableEq, Repr

/-- The whole `streamMessage` generator. `chunks` are the raw-stream
updates delivered before the stream ended; `outcome` is `none` for normal
termination and `some f` when iterating the raw stream threw `f` after the
delivered chunks. On normal termination the final-buffer flush runs; on a
failure it does not, the events yielded so far stand, and the catch handler
rethrows an `AbortError` but converts any other failure into a final
`error` event. -/
def streamMessage {α : Type} (parse : List Char → Option α)
    (chunks : List (List Char)) (outcome : Option StreamFailure) :
    Except StreamFailure (List (Yielded α)) :=
  match outcome with
  | none => .ok ((streamEvents parse chunks).map .parsed)
  | some f =>
    if isAbortError f then .error f
    else
      .ok ((processChunks parse chunks []).2.map .parsed ++
        [.errorEvent ("Stream error: " ++ failureText f)])

/-- C8: `streamMessage` never raises to its caller on a non-abort failure:
the failure is converted into a final yielded event of type `error` whose
message carries the underlying error text, while an `AbortError` is
re-raised unchanged (and a normally terminated stream also returns
normally). -/
theorem streamMessage_error_handling {α : Type} (parse : List Char → Option α)
    (chunks : List (List Char)) (f : StreamFailure) :
    (isAbortError f = false →
      ∃ evs, streamMessage parse chunks (some f) = .ok evs ∧
        evs.getLast? =
          some (.errorEvent ("Stream error: " ++ failureText f))) ∧
    (isAbortError f = true →
      streamMessage parse chunks (some f) = .error f) ∧
    streamMessage parse chunks none =
      .ok ((streamEvents parse chunks).map .parsed) := by
  refine ⟨?_, ?_, rfl⟩
  · intro hab
    refine ⟨(processChunks parse chunks []).2.map .parsed ++
      [.errorEvent ("Stream error: " ++ failureText f)], ?_, ?_⟩
    · simp [streamMessage, hab]
    · exact List.getLast?_concat _
  · intro hab
    simp [streamMessage, hab]

/-- A concrete non-abort failure. -/
def typeErrorW8 : StreamFailure := .jsError "TypeError" "boom"

/-- A concrete abort. -/
def abortW8 : StreamFailure := .jsError "AbortError" "aborted"

/-- Witness for C8 at concrete inputs: the TypeError becomes a final error
event, the AbortError is re-raised. -/
theorem streamMessage_error_handling_witness :
    (∃ evs, streamMessage parseW9 [] (some typeErrorW8) = .ok evs ∧
      evs.getLast? = some (.errorEvent
        ("Stream error: " ++ failureText typeErrorW8))) ∧
    streamMessage parseW9 [] (some abortW8) = .error abortW8 :=
  ⟨(streamMessage_error_handling parseW9 [] typeErrorW8).1 (by decide),
   (streamMessage_error_handling parseW9 [] abortW8).2.1 (by decide)⟩

end Mandate

namespace Pipeline

/-- The four step display states of `WorkflowPipelineView`. -/
inductive PipelineStepStatus where
  | pending
  | in_progress
  | completed
  | skipped
deriving DecidableEq, Repr

/-- A step of a proposed plan as read by the view (shape reconstructed
from its use: `description`, `input_description`, optional `input_sources`,
legacy optional `input_source`, `output_description`, `method`). -/
structure PlanStep where
  description : String
  input_description : String
  input_sources : Option (List String)
  input_source : Option String
  output_description : String
  method : String
deriving Repr

/-- A step of an active or derived workflow; `wip_output` payloads are
opaque, represented by a type parameter. -/
structure WorkflowStep (P : Type) where
  step_number : Nat
  description : String
  input_description : String
  input_sources : List String
  output_description : String
  method : String
  status : PipelineStepStatus
  wip_output : Option P

/-- The proposed-plan payload as read by the view. -/
structure WorkspacePayload where
  title : Option String
  goal : Option String
  initial_input : Option String
  steps : Option (List PlanStep)

/-- An active workflow as read by the view. -/
structure WorkflowPlan (P : Type) where
  title : Option String
  goal : Option String
  initial_input : Option String
  status : String
  steps : List (WorkflowStep P)

/-- `s.input_sources || [(s as any).input_source || 'user']`. -/
def fallbackSources (s : PlanStep) : List String :=
  match s.input_sources with
  | some l => l
  | none =>
    [match s.input_source with
     | some v => if v = "" then "user" else v
     | none => "user"]

/-- The derived step list for a proposed plan: the i-th plan step becomes
step number `i + 1` with status `pending` and no `wip_output`. -/
def derivedSteps (P : Type) (plan : WorkspacePayload) :
    Option (List (WorkflowStep P)) :=
  plan.steps.map fun l =>
    l.enum.map fun q =>
      { step_number := q.1 + 1
        description := q.2.description
        input_description := q.2.input_description
        input_sources := fallbackSources q.2
        output_description := q.2.output_description
        method := q.2.method
        status := PipelineStepStatus.pending
        wip_output := none }

/-- `const steps = isProposed ? proposedPlan?.steps?.map(...) :
workflow?.steps` with `isProposed = !!proposedPlan && !workflow`. -/
def stepsOf {P : Type} (proposedPlan : Option WorkspacePayload)
    (workflow : Option (WorkflowPlan P)) : Option (List (WorkflowStep P)) :=
  match proposedPlan, workflow with
  | some p, none => derivedSteps P p
  | _, some w => some w.steps
  | none, none => none

/-- C10: with a proposed plan and no active workflow, the derived step list
preserves the plan's declaration order, assigns step number `i + 1` to the
i-th step (so the numbers are exactly 1..n), and gives every step status
`pending` with no `wip_output`. -/
theorem pipeline_proposed_steps {P : Type} (p : WorkspacePayload)
    (l : List PlanStep) (hsteps : p.steps = some l) :
    ∃ m : List (WorkflowStep P),
      stepsOf (some p) (none : Option (WorkflowPlan P)) = some m ∧
      m.length = l.length ∧
      (∀ i s, m.get? i = some s →
        s.step_number = i + 1 ∧ s.status = PipelineStepStatus.pending ∧
        s.wip_output = none) ∧
      (∀ i s t, m.get? i = some s → l.get? i = some t →
        s.description = t.description ∧
        s.input_description = t.input_description ∧
        s.output_description = t.output_description ∧
        s.method = t.method) := by
  refine ⟨l.enum.map fun q =>
      { step_number := q.1 + 1
        description := q.2.description
        input_description := q.2.input_description
        input_sources := fallbackSources q.2
        output_description := q.2.output_description
        method := q.2.method
        status := PipelineStepStatus.pending
        wip_output := none }, ?_, ?_, ?_, ?_⟩
  · simp only [stepsOf, derivedSteps, hsteps, Option.map_some']
  · simp [List.enum_length]
  · intro i s hms
    rw [List.get?_map, List.get?_enum] at hms
    cases hl : l.get? i with
    | none => rw [hl] at hms; cases hms
    | some t =>
      rw [hl] at hms
      simp only [Option.map_some', Option.some.injEq] at hms
      subst hms
      exact ⟨rfl, rfl, rfl⟩
  · intro i s t hms hlt
    rw [List.get?_map, List.get?_enum, hlt] at hms
    simp only [Option.map_some', Option.some.injEq] at hms
    subst hms
    exact ⟨rfl, rfl, rfl, rfl⟩

/-- A concrete two-step proposed plan. -/
def planW10 : WorkspacePayload :=
  { title := some "t"
    goal := some "g"
    initial_input := none
    steps := some
      [{ description := "collect"
         input_description := "query"
         input_sources := none
         input_source := none
         output_description := "raw"
         method := "search" },
       { description := "summarize"
         input_description := "raw"
         input_sources := some ["step_1"]
         input_source := none
         output_description := "report"
         method := "llm" }] }

/-- Witness for C10 on the concrete plan `planW10`. -/
theorem pipeline_proposed_steps_witness :
    ∃ m : List (WorkflowStep Unit),
      stepsOf (some planW10) (none : Option (WorkflowPlan Unit)) = some m ∧
      m.length = 2 ∧
      (∀ i s, m.get? i = some s →
        s.step_number = i + 1 ∧ s.status = PipelineStepStatus.pending ∧
        s.wip_output = none) ∧
      (∀ i s t, m.get? i = some s →
        (planW10.steps.getD []).get? i = some t →
        s.description = t.description ∧
        s.input_description = t.input_description ∧
        s.output_description = t.output_description ∧
        s.method = t.method) := by
  obtain ⟨m, h1, h2, h3, h4⟩ :=
    pipeline_proposed_steps (P := Unit) planW10 (planW10.steps.getD []) rfl
  exact ⟨m, h1, h2, h3, h4⟩

end Pipeline

namespace Engine

/-- Modelled from the spec: the engine backend (graph definition model,
edge resolver, scheduler) has no source under the frontend tree. Node
kinds with their kind-specific payloads (spec section 3): execute nodes
carry input fields, an output field and a tools whitelist; checkpoint
nodes carry allowed actions and editable fields. -/
inductive NodeKind where
  | execute (inputFields : List String) (outputField : String)
      (tools : List String)
  | checkpoint (allowedActions : List Flat.CheckpointAction)
      (editableFields : List String)

/-- Modelled from the spec: an edge with an optional boolean condition
over step data (spec section 3); the condition expression is embedded as a
predicate on the step-data bag. -/
structure EdgeDef (V : Type) where
  from_node : String
  to_node : String
  cond : Option (List (String × V) → Bool)

/-- Modelled from the spec: a graph definition — entry node, node record,
ordered edge list (spec section 3). -/
structure GraphDef (V : Type) where
  entryNode : String
  nodes : List (String × NodeKind)
  edges : List (EdgeDef V)

/-- Overwrite one field of the step-data bag. -/
def setField {V : Type} (sd : List (String × V)) (k : String) (v : V) :
    List (String × V) :=
  (k, v) :: sd.filter (fun q => decide (q.1 ≠ k))

/-- The result of edge resolution. -/
inductive Resolution where
  | next (n : String)
  | terminal
  | designError
deriving DecidableEq, Repr

/-- Modelled from the spec: the Edge Resolver (spec section 4.3). Gather
the edges leaving `nodeId` in declaration order; take the first whose
condition holds; otherwise fall back to the first unconditional edge
(conditional edges take precedence regardless of declaration order); no
outgoing edges means the node is terminal; outgoing edges none of which
resolve is a graph design error. -/
def resolveNext {V : Type} (d : GraphDef V) (nodeId : String)
    (sd : List (String × V)) : Resolution :=
  let out := d.edges.filter (fun e => e.from_node == nodeId)
  if out.isEmpty then .terminal
  else
    match out.find? (fun e =>
        match e.cond with
        | some c => c sd
        | none => false) with
    | some e => .next e.to_node
    | none =>
      match out.find? (fun e => e.cond.isNone) with
      | some e => .next e.to_node
      | none => .designError

/-- Modelled from the spec: a resume request `{action, userData?}` (spec
section 6). -/
structure ResumeReq (V : Type) where
  action : Flat.CheckpointAction
  userData : List (String × V)

/-- Modelled from the spec: the external deterministic collaborators of
one engine run — the task executor for execute nodes and the step-data
value recording a rejected checkpoint outcome. -/
structure EngineParams (V : Type) where
  exec : String → List (String × V) → V
  rejectedMark : V

/-- Merge user data into step data by field name, restricted to the
checkpoint's editable fields; other fields are ignored (spec section 9). -/
def mergeFields {V : Type} (editable : List String)
    (userData : List (String × V)) (sd : List (String × V)) :
    List (String × V) :=
  userData.foldl
    (fun acc q => if q.1 ∈ editable then setField acc q.1 q.2 else acc) sd

/-- Modelled from the spec: the effect of a valid resume action on step
data (spec section 4.4): approve and skip leave it unchanged, edit merges
the user data over the editable fields, reject records the rejected
outcome. -/
def applyResume {V : Type} (p : EngineParams V) (nodeId : String)
    (editable : List String) (r : ResumeReq V) (sd : List (String × V)) :
    List (String × V) :=
  match r.action with
  | .approve => sd
  | .skip => sd
  | .edit => mergeFields editable r.userData sd
  | .reject => setField sd (nodeId ++ "_outcome") p.rejectedMark

/-- Modelled from the spec: the mutable engine configuration of one
instance — status, current node, step data, the recorded node-visit
sequence, and the resume requests not yet consumed. -/
structure Config (V : Type) where
  status : WorkflowInstanceStatus
  currentNode : Option String
  stepData : List (String × V)
  visits : List String
  pendingResumes : List (ResumeReq V)

/-- The initial configuration of a run: status pending, step data seeded
from the validated input, the whole resume-action sequence pending. -/
def initConfig {V : Type} (input : List (String × V))
    (resumes : List (ResumeReq V)) : Config V :=
  { status := .pending
    currentNode := none
    stepData := input
    visits := []
    pendingResumes := resumes }

/-- Modelled from the spec: one micro-step of the Execution Engine (spec
section 4.5). `start` moves a pending instance to running at the entry
node; an execute node runs the task executor, records the visit, writes
the output field, and follows the resolved edge (completing on a terminal
node and failing on a design error); a running instance whose current node
is a checkpoint suspends to waiting; a waiting checkpoint consumes the
next pending resume request when its action is allowed, applies it to the
step data, records the visit, and follows the resolved edge. An invalid
resume action, a terminal status, or an exhausted resume list admits no
step. -/
inductive EStep {V : Type} (d : GraphDef V) (p : EngineParams V) :
    Config V → Config V → Prop
  | start (c : Config V) :
      c.status = .pending →
      EStep d p c { c with status := .running, currentNode := some d.entryNode }
  | exec_next (c : Config V) (n : String) (inF : List String) (outF : String)
      (tools : List String) (m : String) :
      c.status = .running →
      c.currentNode = some n →
      d.nodes.lookup n = some (.execute inF outF tools) →
      resolveNext d n (setField c.stepData outF (p.exec n c.stepData)) =
        .next m →
      EStep d p c
        { c with
          currentNode := some m
          stepData := setField c.stepData outF (p.exec n c.stepData)
          visits := c.visits ++ [n] }
  | exec_terminal (c : Config V) (n : String) (inF : List String)
      (outF : String) (tools : List String) :
      c.status = .running →
      c.currentNode = some n →
      d.nodes.lookup n = some (.execute inF outF tools) →
      resolveNext d n (setField c.stepData outF (p.exec n c.stepData)) =
        .terminal →
      EStep d p c
        { c with
          status := .completed
          currentNode := none
          stepData := setField c.stepData outF (p.exec n c.stepData)
          visits := c.visits ++ [n] }
  | exec_designError (c : Config V) (n : String) (inF : List String)
      (outF : String) (tools : List String) :
      c.status = .running →
      c.currentNode = some n →
      d.nodes.lookup n = some (.execute inF outF tools) →
      resolveNext d n (setField c.stepData outF (p.exec n c.stepData)) =
        .designError →
      EStep d p c
        { c with
          status := .failed
          stepData := setField c.stepData outF (p.exec n c.stepData)
          visits := c.visits ++ [n] }
  | suspend (c : Config V) (n : String) (allowed : List Flat.CheckpointAction)
      (editable : List String) :
      c.status = .running →
      c.currentNode = some n →
      d.nodes.lookup n = some (.checkpoint allowed editable) →
      EStep d p c { c with status := .waiting }
  | resume_next (c : Config V) (n : String)
      (allowed : List Flat.CheckpointAction) (editable : List String)
      (r : ResumeReq V) (rest : List (ResumeReq V)) (m : String) :
      c.status = .waiting →
      c.currentNode = some n →
      d.nodes.lookup n = some (.checkpoint allowed editable) →
      c.pendingResumes = r :: rest →
      r.action ∈ allowed →
      resolveNext d n (applyResume p n editable r c.stepData) = .next m →
      EStep d p c
        { c with
          status := .running
          currentNode := some m
          stepData := applyResume p n editable r c.stepData
          visits := c.visits ++ [n]
          pendingResumes := rest }
  | resume_terminal (c : Config V) (n : String)
      (allowed : List Flat.CheckpointAction) (editable : List String)
      (r : ResumeReq V) (rest : List (ResumeReq V)) :
      c.status = .waiting →
      c.currentNode = some n →
      d.nodes.lookup n = some (.checkpoint allowed editable) →
      c.pendingResumes = r :: rest →
      r.action ∈ allowed →
      resolveNext d n (applyResume p n editable r c.stepData) = .terminal →
      EStep d p c
        { c with
          status := .completed
          currentNode := none
          stepData := applyResume p n editable r c.stepData
          visits := c.visits ++ [n]
          pendingResumes := rest }
  | resume_designError (c : Config V) (n : String)
      (allowed : List Flat.CheckpointAction) (editable : List String)
      (r : ResumeReq V) (rest : List (ResumeReq V)) :
      c.status = .waiting →
      c.currentNode = some n →
      d.nodes.lookup n = some (.checkpoint allowed editable) →
      c.pendingResumes = r :: rest →
      r.action ∈ allowed →
      resolveNext d n (applyResume p n editable r c.stepData) =
        .designError →
      EStep d p c
        { c with
          status := .failed
          stepData := applyResume p n editable r c.stepData
          visits := c.visits ++ [n]
          pendingResumes := rest }

/-- The engine step relation is deterministic: a configuration has at most
one successor. -/
theorem estep_deterministic {V : Type} {d : GraphDef V} {p : EngineParams V}
    {c c1 c2 : Config V} (h1 : EStep d p c c1) (h2 : EStep d p c c2) :
    c1 = c2 := by
  cases h1 <;> cases h2 <;> simp_all

/-- Reachability: the reflexive-transitive closure of the engine step. -/
def Reaches {V : Type} (d : GraphDef V) (p : EngineParams V) :
    Config V → Config V → Prop :=
  Relation.ReflTransGen (EStep d p)

/-- A configuration from which the engine admits no further step (a
finished run: terminal status, a stuck invalid resume, or an exhausted
resume list at a checkpoint). -/
def NoStep {V : Type} (d : GraphDef V) (p : EngineParams V)
    (c : Config V) : Prop :=
  ∀ c', ¬ EStep d p c c'

/-- A deterministic step relation reaches at most one stuck
configuration. -/
theorem reaches_noStep_unique {V : Type} {d : GraphDef V}
    {p : EngineParams V} :
    ∀ {a b c : Config V}, Reaches d p a b → NoStep d p b →
      Reaches d p a c → NoStep d p c → b = c := by
  intro a b c h1
  induction h1 using Relation.ReflTransGen.head_induction_on with
  | refl =>
    intro hb h2 hc
    rcases Relation.ReflTransGen.cases_head h2 with rfl | ⟨x, hx, _⟩
    · rfl
    · exact absurd hx (hb x)
  | head hstep htail ih =>
    intro hb h2 hc
    rcases Relation.ReflTransGen.cases_head h2 with rfl | ⟨x, hx, hxc⟩
    · exact absurd hstep (hc _)
    · have := estep_deterministic hstep hx
      subst this
      exact ih hb hxc hc

/-- C1: replayability of the drive loop as a two-run equality. For every
graph definition, initial input, resume-request sequence, and
deterministic external executor, two finished runs of the engine from the
same initial configuration end in the same configuration; in particular
they produce an identical sequence of node visits and identical final
step data. -/
theorem engine_deterministic {V : Type} (d : GraphDef V) (p : EngineParams V)
    (input : List (String × V)) (resumes : List (ResumeReq V))
    (c1 c2 : Config V)
    (h1 : Reaches d p (initConfig input resumes) c1) (t1 : NoStep d p c1)
    (h2 : Reaches d p (initConfig input resumes) c2) (t2 : NoStep d p c2) :
    c1.visits = c2.visits ∧ c1.stepData = c2.stepData := by
  have h := reaches_noStep_unique h1 t1 h2 t2
  rw [h]
  exact ⟨rfl, rfl⟩

/-- A one-node graph used by the C1 witness: a single execute node `A`
with no outgoing edges. -/
def dW1 : GraphDef Nat :=
  { entryNode := "A"
    nodes := [("A", .execute [] "out" [])]
    edges := [] }

/-- Executor and reject mark used by the C1 witness. -/
def pW1 : EngineParams Nat :=
  { exec := fun _ sd => sd.length
    rejectedMark := 0 }

/-- The finished configuration of the witness run. -/
def cW1 : Config Nat :=
  { status := .completed
    currentNode := none
    stepData := setField [] "out" 0
    visits := ["A"]
    pendingResumes := [] }

theorem cW1_reached : Reaches dW1 pW1 (initConfig [] []) cW1 := by
  have hstart : EStep dW1 pW1 (initConfig [] [])
      { initConfig ([] : List (String × Nat)) ([] : List (ResumeReq Nat)) with
        status := .running, currentNode := some dW1.entryNode } :=
    EStep.start _ rfl
  have hexec : EStep dW1 pW1
      { initConfig ([] : List (String × Nat)) ([] : List (ResumeReq Nat)) with
        status := .running, currentNode := some dW1.entryNode } cW1 := by
    have h := EStep.exec_terminal (d := dW1) (p := pW1)
      { initConfig ([] : List (String × Nat)) ([] : List (ResumeReq Nat)) with
        status := .running, currentNode := some dW1.entryNode }
      "A" [] "out" [] rfl rfl rfl rfl
    simpa [cW1, initConfig] using h
  exact Relation.ReflTransGen.head hstart
    (Relation.ReflTransGen.head hexec Relation.ReflTransGen.refl)

theorem cW1_noStep : NoStep dW1 pW1 cW1 := by
  intro c' h
  cases h <;> simp_all [cW1]

/-- Witness for C1: the concrete one-node run, compared with itself
through the determinism theorem. -/
theorem engine_deterministic_witness :
    cW1.visits = cW1.visits ∧ cW1.stepData = cW1.stepData :=
  engine_deterministic dW1 pW1 [] [] cW1 cW1
    cW1_reached cW1_noStep cW1_reached cW1_noStep

end Engine
